import Mathlib

/-!
Verification of the DxMessaging documentation-link tooling.

This file gives a shallow embedding of the three Python text filters of the
repository — the Link Scanner (`check_markdown_links.py`), the Encoding
Scanner (`check_markdown_url_encoding.py`) and the Link Rewriter
(`docs/hooks.py`) — as executable Lean functions over `List Char`, and proves
the specification claims about them.

Recursions that are not structural on their main argument are written with an
explicit fuel parameter (always instantiated with the input length, which is a
strict bound on the number of steps) so that every definition reduces inside
the kernel and concrete documents can be evaluated by `decide`/`rfl`.
-/

/-- The backtick character (code 96), written via `Char.ofNat`. -/
def bq : Char := Char.ofNat 96

/-- Unicode replacement character, produced by UTF-8 decoding errors. -/
def replCh : Char := Char.ofNat 0xFFFD

/-- Python `str.strip`'s (and regex `\s`'s) ASCII whitespace set:
space, tab, newline, carriage return, vertical tab, form feed. -/
def isPySpace (c : Char) : Bool :=
  c = ' ' || c = '\t' || c = '\n' || c = '\r' || c = Char.ofNat 11 || c = Char.ofNat 12

/-- Python `str.lstrip()` (no argument): drop leading whitespace. -/
def pyLStrip (s : List Char) : List Char := s.dropWhile isPySpace

/-- Python `str.rstrip()` (no argument): drop trailing whitespace. -/
def pyRStrip (s : List Char) : List Char := (s.reverse.dropWhile isPySpace).reverse

/-- Python `str.strip()` (no argument). -/
def pyStrip (s : List Char) : List Char := pyRStrip (pyLStrip s)

/-- ASCII-range model of Python `str.lower()` (all strings in this code base
are ASCII). -/
def asciiLowerChar (c : Char) : Char :=
  if 'A' ≤ c ∧ c ≤ 'Z' then Char.ofNat (c.toNat + 32) else c

/-- `str.lower()` on a character list. -/
def asciiLower (s : List Char) : List Char := s.map asciiLowerChar

/-- Hexadecimal digit test, as accepted by `urllib.parse.unquote`. -/
def isHexDigitCh (c : Char) : Bool :=
  (48 ≤ c.toNat && c.toNat ≤ 57) || (97 ≤ c.toNat && c.toNat ≤ 102) ||
    (65 ≤ c.toNat && c.toNat ≤ 70)

/-- Value of a hexadecimal digit. -/
def hexVal (c : Char) : Nat :=
  if c.toNat ≤ 57 then c.toNat - 48
  else if 97 ≤ c.toNat then c.toNat - 87
  else c.toNat - 55

/-- Collect the maximal leading run of `%XX` groups (as `urllib.parse.unquote`
does before UTF-8-decoding them); returns the decoded bytes and the remainder. -/
def pctBytes : List Char → List Nat × List Char
  | '%' :: h1 :: h2 :: rest =>
    if isHexDigitCh h1 && isHexDigitCh h2 then
      let pr := pctBytes rest
      ((hexVal h1 * 16 + hexVal h2) :: pr.1, pr.2)
    else ([], '%' :: h1 :: h2 :: rest)
  | s => ([], s)

/-- UTF-8 decoding with U+FFFD replacement on errors (Python's
`errors="replace"`), fuelled on the byte count. -/
def utf8DecodeGo : Nat → List Nat → List Char
  | 0, _ => []
  | _ + 1, [] => []
  | f + 1, b :: rest =>
    if b < 128 then Char.ofNat b :: utf8DecodeGo f rest
    else if 194 ≤ b ∧ b ≤ 223 then
      match rest with
      | c1 :: r2 =>
        if 128 ≤ c1 ∧ c1 ≤ 191 then
          Char.ofNat ((b - 192) * 64 + (c1 - 128)) :: utf8DecodeGo f r2
        else replCh :: utf8DecodeGo f rest
      | [] => replCh :: utf8DecodeGo f rest
    else if 224 ≤ b ∧ b ≤ 239 then
      match rest with
      | c1 :: c2 :: r3 =>
        let lo := if b = 224 then 160 else 128
        let hi := if b = 237 then 159 else 191
        if (lo ≤ c1 ∧ c1 ≤ hi) ∧ 128 ≤ c2 ∧ c2 ≤ 191 then
          Char.ofNat ((b - 224) * 4096 + (c1 - 128) * 64 + (c2 - 128)) :: utf8DecodeGo f r3
        else replCh :: utf8DecodeGo f rest
      | _ => replCh :: utf8DecodeGo f rest
    else if 240 ≤ b ∧ b ≤ 244 then
      match rest with
      | c1 :: c2 :: c3 :: r4 =>
        let lo := if b = 240 then 144 else 128
        let hi := if b = 244 then 143 else 191
        if (lo ≤ c1 ∧ c1 ≤ hi) ∧ (128 ≤ c2 ∧ c2 ≤ 191) ∧ 128 ≤ c3 ∧ c3 ≤ 191 then
          Char.ofNat ((b - 240) * 262144 + (c1 - 128) * 4096 + (c2 - 128) * 64 + (c3 - 128))
            :: utf8DecodeGo f r4
        else replCh :: utf8DecodeGo f rest
      | _ => replCh :: utf8DecodeGo f rest
    else replCh :: utf8DecodeGo f rest

/-- UTF-8 decoding of a byte list. -/
def utf8Decode (bs : List Nat) : List Char := utf8DecodeGo bs.length bs

/-- Fuelled body of `urllib.parse.unquote`: each maximal `%XX` run is decoded
as UTF-8, everything else is passed through; malformed groups stay literal. -/
def pyUnquoteGo : Nat → List Char → List Char
  | 0, s => s
  | _ + 1, [] => []
  | f + 1, c :: cs =>
    if c = '%' then
      let pr := pctBytes (c :: cs)
      if pr.1.isEmpty then c :: pyUnquoteGo f cs
      else utf8Decode pr.1 ++ pyUnquoteGo f pr.2
    else c :: pyUnquoteGo f cs

/-- `urllib.parse.unquote` (it never raises; the scanner's `try/except` around
it is dead code). -/
def pyUnquote (s : List Char) : List Char := pyUnquoteGo s.length s

/-- UTF-8 encoding of one character (for `urllib.parse.quote`). -/
def utf8EncodeChar (c : Char) : List Nat :=
  let n := c.toNat
  if n < 128 then [n]
  else if n < 2048 then [192 + n / 64, 128 + n % 64]
  else if n < 65536 then [224 + n / 4096, 128 + (n / 64) % 64, 128 + n % 64]
  else [240 + n / 262144, 128 + (n / 4096) % 64, 128 + (n / 64) % 64, 128 + n % 64]

/-- Upper-case hexadecimal digit, as emitted by `urllib.parse.quote`. -/
def hexDigitUpper (n : Nat) : Char :=
  if n < 10 then Char.ofNat (48 + n) else Char.ofNat (55 + n)

/-- `quote`'s always-safe set: ALPHA / DIGIT / `_` / `.` / `-` / `~`. -/
def isUnreservedCh (c : Char) : Bool :=
  (65 ≤ c.toNat && c.toNat ≤ 90) || (97 ≤ c.toNat && c.toNat ≤ 122) ||
    (48 ≤ c.toNat && c.toNat ≤ 57) || c = '_' || c = '.' || c = '-' || c = '~'

/-- `urllib.parse.quote(component, safe="")`. -/
def pyQuote (s : List Char) : List Char :=
  (s.map (fun c =>
    if isUnreservedCh c then [c]
    else ((utf8EncodeChar c).map
      (fun b => ['%', hexDigitUpper (b / 16), hexDigitUpper (b % 16)])).flatten)).flatten

/-! ## Link Scanner (`.github/scripts/check_markdown_links.py`) -/

/-- `re.sub(r"[?#].*$", "", target)`: keep everything before the first `?` or
`#` (link targets never contain newlines, so `.*$` reaches the end). -/
def stripQueryFragment (t : List Char) : List Char :=
  t.takeWhile (fun c => c != '?' && c != '#')

/-- The scheme test `re.match(r"^(#|https?://|mailto:|tel:|data:)", target)` of
`should_check_target`. -/
def linkSchemeExempt (t : List Char) : Bool :=
  "#".toList.isPrefixOf t || "http://".toList.isPrefixOf t ||
    "https://".toList.isPrefixOf t || "mailto:".toList.isPrefixOf t ||
    "tel:".toList.isPrefixOf t || "data:".toList.isPrefixOf t

/-- `should_check_target`: skip schemes/anchors, then check whether the
percent-decoded, query/fragment-stripped target ends in `.md`. -/
def should_check_target (target : List Char) : Bool :=
  if linkSchemeExempt target then false
  else ".md".toList.isSuffixOf (asciiLower (pyUnquote (stripQueryFragment target)))

/-- `os.path.basename` (POSIX): the part after the last `/`. -/
def pyBasename (p : List Char) : List Char :=
  (p.reverse.takeWhile (fun c => c != '/')).reverse

/-- `is_link_text_problematic`: exact file-name match, path-looking text, or
text ending in `.md`. -/
def is_link_text_problematic (text target : List Char) : Bool :=
  let target_core := pyUnquote (stripQueryFragment target)
  let file_name := pyBasename target_core
  let is_exact_file_name := asciiLower text == asciiLower file_name
  let looks_like_path := (text.contains '/' || text.contains '\\') && !(text.any isPySpace)
  let looks_like_markdown := ".md".toList.isSuffixOf (asciiLower (pyStrip text))
  is_exact_file_name || looks_like_path || looks_like_markdown

/-- Fuelled body of `remove_inline_code` = `re.sub(r"`[^`]+`", "", line)`:
delete every backtick-delimited span with non-empty backtick-free content. -/
def removeInlineCodeGo : Nat → List Char → List Char
  | 0, s => s
  | _ + 1, [] => []
  | f + 1, c :: cs =>
    if c = bq then
      let content := cs.takeWhile (fun x => x != bq)
      if content.isEmpty then c :: removeInlineCodeGo f cs
      else
        match cs.drop content.length with
        | d :: rest => if d = bq then removeInlineCodeGo f rest else c :: removeInlineCodeGo f cs
        | [] => c :: removeInlineCodeGo f cs
    else c :: removeInlineCodeGo f cs

/-- `remove_inline_code`. -/
def remove_inline_code (line : List Char) : List Char :=
  removeInlineCodeGo line.length line

/-- After the raw target of `LINK_RE`, skip the optional quoted title
`(?:\s+"[^"]*")?` and require the closing parenthesis; returns the rest of the
line after the match. -/
def linkTitleSkip : List Char → Option (List Char)
  | ')' :: rest => some rest
  | r3 =>
    let ws := r3.takeWhile isPySpace
    if ws.isEmpty then none
    else
      match r3.drop ws.length with
      | '"' :: r5 =>
        let tt := r5.takeWhile (fun c => c != '"')
        match r5.drop tt.length with
        | '"' :: ')' :: rest => some rest
        | _ => none
      | _ => none

/-- Try to match `LINK_RE = (?<!\!)\[(?P<text>[^\]]+)\]\((?P<target>[^)\s]+)(?:\s+"[^"]*")?\)`
at the head of `s`, where `prev` is the character before `s` (for the
image-excluding look-behind). Returns raw text, raw target and the rest. -/
def scanLinkTryAt (prev : Option Char) (s : List Char) : Option (List Char × List Char × List Char) :=
  match s with
  | '[' :: cs =>
    if prev = some '!' then none
    else
      let text := cs.takeWhile (fun c => c != ']')
      if text.isEmpty then none
      else
        match cs.drop text.length with
        | ']' :: '(' :: r2 =>
          let target := r2.takeWhile (fun c => !isPySpace c && c != ')')
          if target.isEmpty then none
          else
            match linkTitleSkip (r2.drop target.length) with
            | some rest => some (text, target, rest)
            | none => none
        | _ => none
  | _ => none

/-- `LINK_RE.finditer`: left-to-right scan, continuing after each match. -/
def scanLinksGo : Nat → Option Char → List Char → List (List Char × List Char)
  | 0, _, _ => []
  | _ + 1, _, [] => []
  | f + 1, prev, c :: cs =>
    match scanLinkTryAt prev (c :: cs) with
    | some (text, target, rest) => (text, target) :: scanLinksGo f (some ')') rest
    | none => scanLinksGo f (some c) cs

/-- All `LINK_RE` matches of a line, as (raw text, raw target) pairs. -/
def scanLinks (s : List Char) : List (List Char × List Char) :=
  scanLinksGo s.length none s

/-- `check_line_for_issues`: inside a code block nothing is reported; otherwise
inline code is removed, links are extracted, their groups stripped, and a link
is kept when its target must be checked and its text is problematic. -/
def check_line_for_issues (line : List Char) (in_code_block : Bool) :
    List (List Char × List Char) :=
  if in_code_block then []
  else
    ((scanLinks (remove_inline_code line)).map
      (fun tu => (pyStrip tu.1, pyStrip tu.2))).filter
      (fun tu => should_check_target tu.2 && is_link_text_problematic tu.1 tu.2)

/-- `check_code_fence`. The `none` branch inside a code block is unreachable
from `check_file_content` (the Python code would raise a `TypeError` there;
see the fence-state invariant theorem). -/
def check_code_fence (stripped_line : List Char) (in_code_block : Bool)
    (code_fence_pattern : Option (List Char)) : Bool × Option (List Char) × Bool :=
  if !("```".toList.isPrefixOf stripped_line) then
    (in_code_block, code_fence_pattern, false)
  else
    let fence := stripped_line.takeWhile (fun c => c = bq)
    if !in_code_block then (true, some fence, true)
    else
      match code_fence_pattern with
      | some pat =>
        if pat.isPrefixOf stripped_line && pyStrip stripped_line == pat then
          (false, none, true)
        else (in_code_block, code_fence_pattern, false)
      | none => (in_code_block, code_fence_pattern, false)

/-- The loop body of `check_file_content`, carrying the 1-based line index and
the fence state. -/
def checkFileGo : Nat → Bool → Option (List Char) → List (List Char) →
    List (Nat × List Char × List Char)
  | _, _, _, [] => []
  | idx, b, p, line :: rest =>
    let st := check_code_fence (pyLStrip line) b p
    let tail := checkFileGo (idx + 1) st.1 st.2.1 rest
    if st.2.2 then tail
    else ((check_line_for_issues line st.1).map (fun tu => (idx, tu.1, tu.2))) ++ tail

/-- `check_file_content`: scan the lines of a file, starting outside any code
block, returning `(line_number, text, target)` issues in order. -/
def check_file_content (lines : List (List Char)) : List (Nat × List Char × List Char) :=
  checkFileGo 1 false none lines

/-- The fence state after scanning a list of lines (the state
`check_file_content` carries), for stating the fence-state invariant. -/
def fenceStateAfter (lines : List (List Char)) : Bool × Option (List Char) :=
  lines.foldl (fun st line =>
    let r := check_code_fence (pyLStrip line) st.1 st.2
    (r.1, r.2.1)) (false, none)

/-! ## Encoding Scanner (`.github/scripts/check_markdown_url_encoding.py`) -/

/-- `is_external`: full URL schemes exempt from the encoding check (note that
`#` anchors are not in this list). -/
def is_external (target : List Char) : Bool :=
  "http://".toList.isPrefixOf target || "https://".toList.isPrefixOf target ||
    "mailto:".toList.isPrefixOf target || "tel:".toList.isPrefixOf target ||
    "data:".toList.isPrefixOf target

/-- `has_unencoded_chars`: a raw space or plus sign anywhere in the target. -/
def has_unencoded_chars (target : List Char) : Bool :=
  target.contains ' ' || target.contains '+'

/-- Try to match the bracketed part of `INLINE_LINK_RE` at the head of `s`
(the leading `!?` only widens a match leftwards over an image bang; the target
group and the continuation point are unchanged). Returns the raw target and
the rest of the line. -/
def encInlineTryAt (s : List Char) : Option (List Char × List Char) :=
  match s with
  | '[' :: cs =>
    let text := cs.takeWhile (fun c => c != ']')
    if text.isEmpty then none
    else
      match cs.drop text.length with
      | ']' :: '(' :: r2 =>
        let target := r2.takeWhile (fun c => !isPySpace c && c != ')')
        if target.isEmpty then none
        else
          match linkTitleSkip (r2.drop target.length) with
          | some rest => some (target, rest)
          | none => none
      | _ => none
  | _ => none

/-- `INLINE_LINK_RE.finditer`: raw targets of all inline link/image matches. -/
def encInlineTargetsGo : Nat → List Char → List (List Char)
  | 0, _ => []
  | _ + 1, [] => []
  | f + 1, c :: cs =>
    match encInlineTryAt (c :: cs) with
    | some (target, rest) => target :: encInlineTargetsGo f rest
    | none => encInlineTargetsGo f cs

/-- Raw targets of all `INLINE_LINK_RE` matches of a line. -/
def encInlineTargets (line : List Char) : List (List Char) :=
  encInlineTargetsGo line.length line

/-- `REF_DEF_RE.match(line)`: a line-anchored reference-style definition
`^\s*\[id\]:\s*target(\s+"title")?\s*$`; returns the raw target group. -/
def refDefTarget (line : List Char) : Option (List Char) :=
  match line.dropWhile isPySpace with
  | '[' :: cs =>
    let idt := cs.takeWhile (fun c => c != ']')
    if idt.isEmpty then none
    else
      match cs.drop idt.length with
      | ']' :: ':' :: r2 =>
        let r3 := r2.dropWhile isPySpace
        let target := r3.takeWhile (fun c => !isPySpace c)
        if target.isEmpty then none
        else
          let r4 := r3.drop target.length
          if r4.all isPySpace then some target
          else
            let ws := r4.takeWhile isPySpace
            if ws.isEmpty then none
            else
              match r4.drop ws.length with
              | '"' :: r5 =>
                let tt := r5.takeWhile (fun c => c != '"')
                match r5.drop tt.length with
                | '"' :: r6 => if r6.all isPySpace then some target else none
                | _ => none
              | _ => none
      | _ => none
  | _ => none

/-- The targets the Encoding Scanner flags on one line: non-external inline
targets containing a raw space or `+`, then the reference-definition target
under the same test (both stripped, as in `scan_file`). -/
def encLineTargets (line : List Char) : List (List Char) :=
  (((encInlineTargets line).map pyStrip).filter
      (fun t => !is_external t && has_unencoded_chars t)) ++
    (match refDefTarget line with
     | some t =>
       let t' := pyStrip t
       if !is_external t' && has_unencoded_chars t' then [t'] else []
     | none => [])

/-! ## Link Rewriter (`docs/hooks.py`) -/

/-- `REPO_URL`. -/
def REPO_URL : List Char := "https://github.com/wallstop/DxMessaging".toList

/-- `BRANCH`. -/
def BRANCH : List Char := "master".toList

/-- `SOURCE_PREFIXES`. -/
def sourcePrefixList : List (List Char) :=
  ["Runtime/".toList, "Tests/".toList, "Editor/".toList, "Samples~/".toList]

/-- `is_source_link`: `url.startswith(SOURCE_PREFIXES)`. -/
def is_source_link (url : List Char) : Bool :=
  sourcePrefixList.any (fun p => p.isPrefixOf url)

/-- Python `str.rstrip("/")`. -/
def rstripSlash (p : List Char) : List Char :=
  (p.reverse.dropWhile (fun c => c = '/')).reverse

/-- Python `str.split(sep)` for a one-character separator. -/
def pySplitChar (sep : Char) : List Char → List (List Char)
  | [] => [[]]
  | c :: cs =>
    let r := pySplitChar sep cs
    if c = sep then [] :: r
    else (c :: r.headD []) :: r.tail

/-- `"/".join(components)`. -/
def joinSlash : List (List Char) → List Char
  | [] => []
  | [x] => x
  | x :: xs => x ++ '/' :: joinSlash xs

/-- `is_directory_link`: trailing slash, or no dot in the last component of the
slash-right-stripped path. -/
def is_directory_link (path : List Char) : Bool :=
  if "/".toList.isSuffixOf path then true
  else
    let last_component := (pySplitChar '/' (rstripSlash path)).getLastD []
    !(last_component.contains '.')

/-- `transform_to_github_url`: tree/blob choice plus per-component
percent-encoding joined with literal slashes. -/
def transform_to_github_url (path : List Char) : List Char :=
  let link_type := if is_directory_link path then "tree".toList else "blob".toList
  let encoded_path := joinSlash ((pySplitChar '/' path).map pyQuote)
  REPO_URL ++ "/".toList ++ link_type ++ "/".toList ++ BRANCH ++ "/".toList ++ encoded_path

/-- `transform_link` on the two groups of a `MARKDOWN_LINK_PATTERN` match
(the `else` branch is `match.group(0)`, reassembled verbatim). -/
def transform_link (text url : List Char) : List Char :=
  if !(is_source_link url) then "[".toList ++ text ++ "](".toList ++ url ++ ")".toList
  else "[".toList ++ text ++ "](".toList ++ transform_to_github_url url ++ ")".toList

/-- Try to match `MARKDOWN_LINK_PATTERN = \[([^\]]+)\]\(([^)]+)\)` at the head
of `s`. -/
def hooksLinkTryAt (s : List Char) : Option (List Char × List Char × List Char) :=
  match s with
  | '[' :: cs =>
    let text := cs.takeWhile (fun c => c != ']')
    if text.isEmpty then none
    else
      match cs.drop text.length with
      | ']' :: '(' :: r2 =>
        let url := r2.takeWhile (fun c => c != ')')
        if url.isEmpty then none
        else
          match r2.drop url.length with
          | ')' :: rest => some (text, url, rest)
          | _ => none
      | _ => none
  | _ => none

/-- Leftmost `MARKDOWN_LINK_PATTERN` match: `(prefix, text, url, rest)`. -/
def hooksLinkFind : List Char → Option (List Char × List Char × List Char × List Char)
  | [] => none
  | c :: cs =>
    match hooksLinkTryAt (c :: cs) with
    | some (t, u, rest) => some ([], t, u, rest)
    | none =>
      match hooksLinkFind cs with
      | some (p, t, u, r) => some (c :: p, t, u, r)
      | none => none

/-- Fuelled body of `MARKDOWN_LINK_PATTERN.sub(transform_link, content)`. -/
def linkSubGo : Nat → List Char → List Char
  | 0, s => s
  | f + 1, s =>
    match hooksLinkFind s with
    | none => s
    | some (pre, t, u, rest) => pre ++ transform_link t u ++ linkSubGo f rest

/-- Stage 3 of `on_page_markdown`: rewrite every markdown link. -/
def linkSub (s : List Char) : List Char := linkSubGo s.length s

/-- The `(text, url)` groups of all `MARKDOWN_LINK_PATTERN` matches, in match
order (used to state hypotheses about a document's links). -/
def linksGo : Nat → List Char → List (List Char × List Char)
  | 0, _ => []
  | f + 1, s =>
    match hooksLinkFind s with
    | none => []
    | some (_, t, u, rest) => (t, u) :: linksGo f rest

/-- All markdown-link matches of a document. -/
def hooksLinks (s : List Char) : List (List Char × List Char) :=
  linksGo s.length s

/-- The two three-character fence delimiters of `FENCED_CODE_BLOCK_PATTERN`. -/
def fenceDelim3 : List Char := "```".toList

/-- The tilde delimiter. -/
def tildeDelim3 : List Char := "~~~".toList

/-- First occurrence of `d` in a list: `(before, after)` split, or `none`
(implements the lazy `.*?\1` search of `FENCED_CODE_BLOCK_PATTERN`). -/
def findSub (d : List Char) : List Char → Option (List Char × List Char)
  | [] => if d.isPrefixOf ([] : List Char) then some ([], []) else none
  | c :: cs =>
    if d.isPrefixOf (c :: cs) then some ([], (c :: cs).drop d.length)
    else
      match findSub d cs with
      | some pr => some (c :: pr.1, pr.2)
      | none => none

/-- After the three-character delimiter `d` of `FENCED_CODE_BLOCK_PATTERN` has
been recognized at the head of `s`: consume the rest of that line (`[^\n]*`),
its newline, then lazily (`.*?\1`) up to and including the next occurrence of
`d`. -/
def fencedTryBody (d s : List Char) : Option (List Char × List Char) :=
  match (s.drop 3).drop ((s.drop 3).takeWhile (fun c => c != '\n')).length with
  | '\n' :: s2 =>
    match findSub d s2 with
    | some (content, rest) =>
        some (d ++ (s.drop 3).takeWhile (fun c => c != '\n') ++ '\n' :: (content ++ d), rest)
    | none => none
  | _ => none

/-- Try to match `FENCED_CODE_BLOCK_PATTERN = (```|~~~)[^\n]*\n.*?\1` (DOTALL)
at the head of `s`: a three-character delimiter, the rest of that line and its
newline, then lazily up to and including the next occurrence of the same
delimiter. -/
def fencedTryAt (s : List Char) : Option (List Char × List Char) :=
  if fenceDelim3.isPrefixOf s then fencedTryBody fenceDelim3 s
  else if tildeDelim3.isPrefixOf s then fencedTryBody tildeDelim3 s
  else none

/-- Leftmost fenced-block match: `(prefix, match, rest)`. -/
def fencedFind : List Char → Option (List Char × List Char × List Char)
  | [] => none
  | c :: cs =>
    match fencedTryAt (c :: cs) with
    | some (m, rest) => some ([], m, rest)
    | none =>
      match fencedFind cs with
      | some (p, m, r) => some (c :: p, m, r)
      | none => none

/-- The fenced-block placeholder `__FENCED_CODE_BLOCK_{k}__`. -/
def fencedPlaceholder (k : Nat) : List Char :=
  "__FENCED_CODE_BLOCK_".toList ++ (Nat.repr k).toList ++ "__".toList

/-- Fuelled body of stage 1 of `on_page_markdown`: replace every fenced block
by its placeholder, collecting the original blocks in occurrence order. -/
def maskFencedGo : Nat → Nat → List Char → List Char × List (List Char)
  | 0, _, s => (s, [])
  | f + 1, k, s =>
    match fencedFind s with
    | none => (s, [])
    | some (pre, m, rest) =>
      let r := maskFencedGo f (k + 1) rest
      (pre ++ fencedPlaceholder k ++ r.1, m :: r.2)

/-- Stage 1 of `on_page_markdown`. -/
def maskFenced (s : List Char) : List Char × List (List Char) :=
  maskFencedGo s.length 0 s

/-- The closing condition of `INLINE_CODE_PATTERN`'s `(?<!`)\1(?!`)` at the
head of `rem`, where `prev` is the character before `rem`. -/
def inlineCloseHere (r : Nat) (prev : Char) (rem : List Char) : Bool :=
  prev != bq && (List.replicate r bq).isPrefixOf rem &&
    ((rem.drop r).head?.all (fun x => x != bq))

/-- Lazy search for the closing backtick run: `(content, rest-after-close)`. -/
def findClose (r : Nat) : Char → List Char → Option (List Char × List Char)
  | prev, rem =>
    if inlineCloseHere r prev rem then some ([], rem.drop r)
    else
      match rem with
      | [] => none
      | c :: cs =>
        match findClose r c cs with
        | some pr => some (c :: pr.1, pr.2)
        | none => none

/-- Try to match `INLINE_CODE_PATTERN = (`+)(?!`)(.*?)(?<!`)\1(?!`)` (DOTALL)
at the head of `s` (the opening run is maximal, so its `(?!`)` always holds). -/
def inlineTryAt (s : List Char) : Option (List Char × List Char) :=
  let run := s.takeWhile (fun c => c = bq)
  if run.isEmpty then none
  else
    match findClose run.length bq (s.drop run.length) with
    | some (content, rest) => some (run ++ content ++ run, rest)
    | none => none

/-- Leftmost inline-code match: `(prefix, match, rest)`. -/
def inlineFind : List Char → Option (List Char × List Char × List Char)
  | [] => none
  | c :: cs =>
    match inlineTryAt (c :: cs) with
    | some (m, rest) => some ([], m, rest)
    | none =>
      match inlineFind cs with
      | some (p, m, r) => some (c :: p, m, r)
      | none => none

/-- The inline-code placeholder `__INLINE_CODE_{k}__`. -/
def inlinePlaceholder (k : Nat) : List Char :=
  "__INLINE_CODE_".toList ++ (Nat.repr k).toList ++ "__".toList

/-- Fuelled body of stage 2 of `on_page_markdown`. -/
def maskInlineGo : Nat → Nat → List Char → List Char × List (List Char)
  | 0, _, s => (s, [])
  | f + 1, k, s =>
    match inlineFind s with
    | none => (s, [])
    | some (pre, m, rest) =>
      let r := maskInlineGo f (k + 1) rest
      (pre ++ inlinePlaceholder k ++ r.1, m :: r.2)

/-- Stage 2 of `on_page_markdown`. -/
def maskInline (s : List Char) : List Char × List (List Char) :=
  maskInlineGo s.length 0 s

/-- Fuelled body of Python `str.replace(old, new)`: replace every
non-overlapping occurrence, left to right. -/
def replaceAllGo (old new : List Char) : Nat → List Char → List Char
  | 0, s => s
  | f + 1, [] => []
  | f + 1, c :: cs =>
    if !old.isEmpty && old.isPrefixOf (c :: cs) then
      new ++ replaceAllGo old new f ((c :: cs).drop old.length)
    else c :: replaceAllGo old new f cs

/-- Python `s.replace(old, new)`. -/
def replaceAll (s old new : List Char) : List Char := replaceAllGo old new s.length s

/-- Stages 4/5 of `on_page_markdown`: restore placeholders in insertion
order (`for i, x in enumerate(xs): content = content.replace(mk i, x)`). -/
def restoreGo (mk : Nat → List Char) : Nat → List (List Char) → List Char → List Char
  | _, [], c => c
  | i, x :: xs, c => restoreGo mk (i + 1) xs (replaceAll c (mk i) x)

/-- `on_page_markdown`'s text transformation (the `page`, `config` and `files`
arguments are passed through unexamined by the Python code). -/
def on_page_markdown (markdown : List Char) : List Char :=
  let fm := maskFenced markdown
  let im := maskInline fm.1
  let c3 := linkSub im.1
  let c4 := restoreGo inlinePlaceholder 0 im.2 c3
  restoreGo fencedPlaceholder 0 fm.2 c4

/-- The fence-state invariant of the Link Scanner: the block flag is set
exactly when the stored pattern is a run of at least three backticks, and a
cleared flag always comes with a cleared pattern. -/
def fenceInv (b : Bool) (p : Option (List Char)) : Prop :=
  (b = true → ∃ n, 3 ≤ n ∧ p = some (List.replicate n bq)) ∧ (b = false → p = none)

/-- Declarative shape of one `FENCED_CODE_BLOCK_PATTERN` match: a
three-character backtick or tilde delimiter occurring at any position (not
necessarily at a line start), the remainder of that line and its newline, then
the shortest (lazily matched) content up to and including the next occurrence
of the same delimiter (the delimiter occurs in `content ++ d` only at its very
end). -/
def FencedShape (m : List Char) : Prop :=
  ∃ d restline content,
    (d = fenceDelim3 ∨ d = tildeDelim3) ∧
    '\n' ∉ restline ∧
    (∀ j, j < content.length → (d.isPrefixOf ((content ++ d).drop j)) = false) ∧
    m = d ++ restline ++ '\n' :: (content ++ d)

/-- A fenced-block match starts at position `i` of `s`. -/
def HasFencedAt (s : List Char) (i : Nat) : Prop :=
  ∃ m, FencedShape m ∧ m <+: s.drop i

/-- Stage-1 masking relation, following the amended claim: the output text and
block list arise from repeatedly replacing the leftmost fenced-block match of
the declared shape by the placeholder of the next index, keeping the original
blocks in occurrence order; when no match exists anywhere the text is kept. -/
inductive FencedMasked : Nat → List Char → List Char → List (List Char) → Prop
  | done (k : Nat) (s : List Char) (h : ∀ i, ¬ HasFencedAt s i) : FencedMasked k s s []
  | step (k : Nat) (pre m rest t : List Char) (bs : List (List Char))
      (hshape : FencedShape m)
      (hleft : ∀ i, i < pre.length → ¬ HasFencedAt (pre ++ m ++ rest) i)
      (htail : FencedMasked (k + 1) rest t bs) :
      FencedMasked k (pre ++ m ++ rest) (pre ++ fencedPlaceholder k ++ t) (m :: bs)

/-! ## Helper lemmas -/

theorem pyLStrip_idem (s : List Char) : pyLStrip (pyLStrip s) = pyLStrip s :=
  List.dropWhile_idempotent isPySpace s

theorem pyStrip_pyLStrip (s : List Char) : pyStrip (pyLStrip s) = pyStrip s := by
  simp [pyStrip, pyLStrip_idem]

theorem pyRStrip_decomp (s : List Char) :
    s = pyRStrip s ++ (s.reverse.takeWhile isPySpace).reverse ∧
      ∀ c ∈ (s.reverse.takeWhile isPySpace).reverse, isPySpace c := by
  constructor
  · have h := List.takeWhile_append_dropWhile isPySpace s.reverse
    calc s = s.reverse.reverse := (List.reverse_reverse s).symm
    _ = (List.takeWhile isPySpace s.reverse ++ List.dropWhile isPySpace s.reverse).reverse := by
        rw [h]
    _ = (List.dropWhile isPySpace s.reverse).reverse ++
          (List.takeWhile isPySpace s.reverse).reverse := by
        rw [List.reverse_append]
    _ = pyRStrip s ++ (s.reverse.takeWhile isPySpace).reverse := rfl
  · intro c hc
    exact List.mem_takeWhile_imp (List.mem_reverse.mp hc)

theorem replicate_prefix_of_le {n m : Nat} (a : Char) (h : n ≤ m) :
    List.replicate n a <+: List.replicate m a := by
  refine ⟨List.replicate (m - n) a, ?_⟩
  rw [← List.replicate_add]
  congr 1
  omega

theorem takeWhile_eq_self_append {p : Char → Bool} {l₁ l₂ : List Char}
    (h : ∀ c ∈ l₁, p c = true) :
    List.takeWhile p (l₁ ++ l₂) = l₁ ++ List.takeWhile p l₂ := by
  induction l₁ with
  | nil => simp
  | cons c cs ih =>
    have hc : p c = true := h c (List.mem_cons_self c cs)
    simp only [List.cons_append, List.takeWhile_cons, hc, if_true]
    rw [ih (fun x hx => h x (List.mem_cons_of_mem c hx))]

theorem takeWhile_stops {p : Char → Bool} {l₁ l₂ : List Char} {d : Char}
    (h : ∀ c ∈ l₁, p c = true) (hd : p d = false) :
    List.takeWhile p (l₁ ++ d :: l₂) = l₁ := by
  rw [takeWhile_eq_self_append h]
  simp [List.takeWhile_cons, hd]

theorem takeWhile_bq_replicate (l : List Char) :
    l.takeWhile (fun c => c = bq) =
      List.replicate (l.takeWhile (fun c => c = bq)).length bq :=
  List.eq_replicate_length.mpr (fun c hc => by
    have := List.mem_takeWhile_imp hc
    simpa using this)

theorem ccf_not_fence (s : List Char) (b : Bool) (p : Option (List Char))
    (h : ("```".toList.isPrefixOf s) = false) :
    check_code_fence s b p = (b, p, false) := by
  unfold check_code_fence
  rw [h]
  rfl

theorem ccf_open (s : List Char) (p : Option (List Char))
    (h : ("```".toList.isPrefixOf s) = true) :
    check_code_fence s false p = (true, some (s.takeWhile (fun c => c = bq)), true) := by
  unfold check_code_fence
  rw [h]
  rfl

theorem ccf_close (s pat : List Char)
    (h : ("```".toList.isPrefixOf s) = true)
    (h2 : (pat.isPrefixOf s && (pyStrip s == pat)) = true) :
    check_code_fence s true (some pat) = (false, none, true) := by
  unfold check_code_fence
  rw [h]
  simp only [Bool.not_true, Bool.false_eq_true, if_false, h2, if_true]

theorem ccf_stay (s pat : List Char)
    (h : ("```".toList.isPrefixOf s) = true)
    (h2 : (pat.isPrefixOf s && (pyStrip s == pat)) = false) :
    check_code_fence s true (some pat) = (true, some pat, false) := by
  unfold check_code_fence
  rw [h]
  simp only [Bool.not_true, Bool.false_eq_true, if_false, h2, if_true]

/-- C1: inside a block fenced by `n ≥ 3` backticks, `check_code_fence` closes
the block exactly on a line whose fully stripped content is that backtick run,
and leaves the state unchanged on every other line (in particular on fence
lines with a different backtick count); consequently, in a document with a
four-backtick outer block containing a complete three-backtick block, no link
inside either block is reported and the link after the outer close is reported
at its 1-based line number 7. -/
theorem c1_fence_exact_close :
    (∀ (line : List Char) (n : Nat), 3 ≤ n →
      ((check_code_fence (pyLStrip line) true (some (List.replicate n bq)) =
          (false, none, true)) ↔ pyStrip line = List.replicate n bq) ∧
      (pyStrip line ≠ List.replicate n bq →
        check_code_fence (pyLStrip line) true (some (List.replicate n bq)) =
          (true, some (List.replicate n bq), false))) ∧
    check_file_content ["````markdown\n".toList, "```\n".toList, "[A.md](A.md)\n".toList,
        "```\n".toList, "more text\n".toList, "````\n".toList, "[B.md](B.md)\n".toList] =
      [(7, "B.md".toList, "B.md".toList)] := by
  constructor
  · intro line n hn
    constructor
    · constructor
      · intro h
        cases hpre : ("```".toList.isPrefixOf (pyLStrip line)) with
        | false =>
          rw [ccf_not_fence _ _ _ hpre] at h
          exact absurd h (by simp)
        | true =>
          cases h2 : ((List.replicate n bq).isPrefixOf (pyLStrip line) &&
              (pyStrip (pyLStrip line) == List.replicate n bq)) with
          | false =>
            rw [ccf_stay _ _ hpre h2] at h
            exact absurd h (by simp)
          | true =>
            have h3 := (Bool.and_eq_true _ _ |>.mp h2).2
            have h4 : pyStrip (pyLStrip line) = List.replicate n bq := by
              simpa using h3
            rwa [pyStrip_pyLStrip] at h4
      · intro h
        have hR : pyRStrip (pyLStrip line) = List.replicate n bq := h
        have hs := (pyRStrip_decomp (pyLStrip line)).1
        have hdecomp : pyLStrip line =
            List.replicate n bq ++ ((pyLStrip line).reverse.takeWhile isPySpace).reverse := by
          rw [← hR]; exact hs
        have hpre3 : ("```".toList.isPrefixOf (pyLStrip line)) = true := by
          apply (List.isPrefixOf_iff_prefix).mpr
          rw [hdecomp]
          have h3 : ("```".toList : List Char) = List.replicate 3 bq := by decide
          rw [h3]
          exact (replicate_prefix_of_le bq hn).trans (List.prefix_append _ _)
        have hpat : ((List.replicate n bq).isPrefixOf (pyLStrip line)) = true := by
          apply (List.isPrefixOf_iff_prefix).mpr
          rw [hdecomp]
          exact List.prefix_append _ _
        have hstrip : pyStrip (pyLStrip line) = List.replicate n bq := by
          rw [pyStrip_pyLStrip]; exact h
        exact ccf_close _ _ hpre3 (by rw [Bool.and_eq_true]
                                      exact ⟨hpat, beq_iff_eq.mpr hstrip⟩)
    · intro hne
      cases hpre : ("```".toList.isPrefixOf (pyLStrip line)) with
      | false => exact ccf_not_fence _ _ _ hpre
      | true =>
        apply ccf_stay _ _ hpre
        have h2 : (pyStrip (pyLStrip line) == List.replicate n bq) = false := by
          rw [pyStrip_pyLStrip]
          simpa using hne
        rw [h2, Bool.and_false]
  · rfl

/-- Witness for C1 at `n = 4`: the line `"````  \n"` closes a four-backtick
fence, the line `"```\n"` leaves it open. -/
theorem c1_witness :
    check_code_fence (pyLStrip "````  \n".toList) true (some (List.replicate 4 bq)) =
      (false, none, true) ∧
    check_code_fence (pyLStrip "```\n".toList) true (some (List.replicate 4 bq)) =
      (true, some (List.replicate 4 bq), false) :=
  ⟨((c1_fence_exact_close.1 "````  \n".toList 4 (by decide)).1).mpr (by decide),
   (c1_fence_exact_close.1 "```\n".toList 4 (by decide)).2 (by decide)⟩

/-- C9: the Link Scanner's fence state satisfies the invariant — the block
flag is set iff the stored pattern is a backtick run of length at least three,
and a cleared flag comes with pattern `none` — initially, after every
`check_code_fence` transition, and after scanning any list of lines. -/
theorem c9_fence_state_invariant :
    fenceInv false none ∧
    (∀ (s : List Char) (b : Bool) (p : Option (List Char)), fenceInv b p →
      fenceInv (check_code_fence s b p).1 (check_code_fence s b p).2.1) ∧
    (∀ lines : List (List Char),
      fenceInv (fenceStateAfter lines).1 (fenceStateAfter lines).2) := by
  have hinit : fenceInv false none := ⟨fun h => Bool.noConfusion h, fun _ => rfl⟩
  have hstep : ∀ (s : List Char) (b : Bool) (p : Option (List Char)), fenceInv b p →
      fenceInv (check_code_fence s b p).1 (check_code_fence s b p).2.1 := by
    intro s b p hp
    cases h1 : ("```".toList.isPrefixOf s) with
    | false =>
      rw [ccf_not_fence _ _ _ h1]
      exact hp
    | true =>
      cases b with
      | false =>
        rw [ccf_open _ _ h1]
        refine ⟨fun _ => ⟨(s.takeWhile (fun c => c = bq)).length, ?_, ?_⟩,
          fun h => Bool.noConfusion h⟩
        · obtain ⟨rest, hrest⟩ := (List.isPrefixOf_iff_prefix).mp h1
          have h3 : ("```".toList : List Char) = [bq, bq, bq] := by decide
          rw [h3] at hrest
          rw [← hrest]
          have h4 : List.takeWhile (fun c => c = bq) ([bq, bq, bq] ++ rest) =
              [bq, bq, bq] ++ List.takeWhile (fun c => c = bq) rest :=
            takeWhile_eq_self_append (by intro c hc; fin_cases hc <;> simp)
          rw [h4]
          simp
        · exact congrArg (fun t => some t) (takeWhile_bq_replicate s)
      | true =>
        obtain ⟨n, hn, hpn⟩ := hp.1 rfl
        subst hpn
        cases h2 : ((List.replicate n bq).isPrefixOf s &&
            (pyStrip s == List.replicate n bq)) with
        | true =>
          rw [ccf_close _ _ h1 h2]
          exact ⟨fun h => Bool.noConfusion h, fun _ => rfl⟩
        | false =>
          rw [ccf_stay _ _ h1 h2]
          exact ⟨fun _ => ⟨n, hn, rfl⟩, fun h => Bool.noConfusion h⟩
  refine ⟨hinit, hstep, ?_⟩
  intro lines
  have main : ∀ (ls : List (List Char)) (st : Bool × Option (List Char)), fenceInv st.1 st.2 →
      fenceInv ((ls.foldl (fun st line =>
          let r := check_code_fence (pyLStrip line) st.1 st.2
          (r.1, r.2.1)) st).1)
        ((ls.foldl (fun st line =>
          let r := check_code_fence (pyLStrip line) st.1 st.2
          (r.1, r.2.1)) st).2) := by
    intro ls
    induction ls with
    | nil => intro st h; simpa using h
    | cons l rest ih =>
      intro st h
      rw [List.foldl_cons]
      exact ih _ (hstep (pyLStrip l) st.1 st.2 h)
  exact main lines (false, none) hinit

/-- Witness for C9: the step preservation applied to the line `"x"` from the
initial state. -/
theorem c9_witness :
    fenceInv (check_code_fence "x".toList false none).1
      (check_code_fence "x".toList false none).2.1 :=
  c9_fence_state_invariant.2.1 "x".toList false none
    ⟨fun h => Bool.noConfusion h, fun _ => rfl⟩

/-- C10: `check_code_fence` recognizes only backtick fences — any stripped
line not starting with three backticks (in particular a `~~~` line) leaves the
state unchanged and is not a fence line; hence links inside a tilde-delimited
block are still flagged by the Link Scanner, while the Link Rewriter masks the
tilde block and leaves the link inside it untouched. -/
theorem c10_backtick_fences_only :
    (∀ (s : List Char) (b : Bool) (p : Option (List Char)),
        ("```".toList.isPrefixOf s) = false → check_code_fence s b p = (b, p, false)) ∧
    check_file_content ["~~~\n".toList, "[A.md](A.md)\n".toList, "~~~\n".toList] =
      [(2, "A.md".toList, "A.md".toList)] ∧
    on_page_markdown "~~~\n[A](Runtime/x)\n~~~".toList =
      "~~~\n[A](Runtime/x)\n~~~".toList := by
  refine ⟨?_, rfl, rfl⟩
  intro s b p h
  exact ccf_not_fence s b p h

/-- Witness for C10: a tilde line inside an open backtick block changes
nothing. -/
theorem c10_witness :
    check_code_fence "~~~ some text\n".toList true (some (List.replicate 3 bq)) =
      (true, some (List.replicate 3 bq), false) :=
  c10_backtick_fences_only.1 "~~~ some text\n".toList true
    (some (List.replicate 3 bq)) (by decide)

/-- C2: contrary to the claim, the Encoding Scanner reports nothing for a line
whose inline-link or reference-definition target is `My File.md` — the target
groups of `INLINE_LINK_RE` (`[^)\s]+`) and `REF_DEF_RE` (`\S+`) cannot match a
string containing a space, so the space branch of `has_unencoded_chars` (which
does flag `My File.md`) is unreachable; `My%20File.md` is likewise not
flagged. -/
theorem c2_space_target_not_reported :
    encLineTargets "[x](My File.md)".toList = [] ∧
    encLineTargets "[id]: My File.md".toList = [] ∧
    has_unencoded_chars "My File.md".toList = true ∧
    encLineTargets "[x](My%20File.md)".toList = [] :=
  ⟨rfl, rfl, rfl, rfl⟩

/-- C5's universal claim is false: the line `[a/b](README.txt)` contains an
inline-link occurrence whose display text `a/b` contains `/` and no
whitespace, yet the Link Scanner reports nothing, because the target
`README.txt` does not pass the target filter. -/
theorem c5_counterexample :
    scanLinks (remove_inline_code "[a/b](README.txt)".toList) =
      [("a/b".toList, "README.txt".toList)] ∧
    check_line_for_issues "[a/b](README.txt)".toList false = [] ∧
    "a/b".toList.contains '/' = true ∧
    "a/b".toList.any isPySpace = false :=
  ⟨rfl, rfl, rfl, rfl⟩

/-- C5 (amended): a display text containing `/` or `\` and no whitespace is
always judged problematic, whatever the target is, provided the target passes
the target filter (`should_check_target`); the line `[a/b](x.md)` is indeed
flagged end to end. -/
theorem c5_pathlike_text_flagged :
    (∀ (text target : List Char),
      (text.contains '/' || text.contains '\\') = true →
      text.any isPySpace = false →
      should_check_target target = true →
      is_link_text_problematic text target = true) ∧
    check_line_for_issues "[a/b](x.md)".toList false = [("a/b".toList, "x.md".toList)] := by
  constructor
  · intro text target h1 h2 _
    unfold is_link_text_problematic
    rw [h1, h2]
    simp
  · rfl

/-- Witness for C5 at text `a/b`, target `x.md`. -/
theorem c5_witness : is_link_text_problematic "a/b".toList "x.md".toList = true :=
  c5_pathlike_text_flagged.1 "a/b".toList "x.md".toList (by decide) (by decide) (by decide)

/-- C6's universal claim is false for the Encoding Scanner: the anchor target
`#a+b` begins with `#` but is flagged (it is not in `is_external`'s list and
contains `+`). -/
theorem c6_counterexample :
    encLineTargets "[x](#a+b)".toList = ["#a+b".toList] ∧
    "#".toList.isPrefixOf "#a+b".toList = true :=
  ⟨rfl, rfl⟩

theorem mem_check_line_should (line : List Char) (b : Bool) (t u : List Char)
    (h : (t, u) ∈ check_line_for_issues line b) : should_check_target u = true := by
  unfold check_line_for_issues at h
  cases b with
  | true => simp at h
  | false =>
    simp only [Bool.false_eq_true, if_false] at h
    have hp := (List.mem_filter.mp h).2
    exact ((Bool.and_eq_true _ _).mp hp).1

theorem should_check_not_exempt (u : List Char)
    (h : should_check_target u = true) : linkSchemeExempt u = false := by
  unfold should_check_target at h
  cases he : linkSchemeExempt u with
  | false => rfl
  | true => rw [he] at h; simp at h

/-- C6 (amended): the Link Scanner never flags an occurrence whose target
begins with `#`, `http://`, `https://`, `mailto:`, `tel:` or `data:`
(`linkSchemeExempt` is exactly that disjunction), and the Encoding Scanner
never flags a target beginning with `http://`, `https://`, `mailto:`, `tel:`
or `data:` (`is_external`'s list) — but `#` anchors are not exempt in the
Encoding Scanner. -/
theorem c6_exempt_targets_not_flagged :
    (∀ (line : List Char) (b : Bool) (t u : List Char),
      (t, u) ∈ check_line_for_issues line b → linkSchemeExempt u = false) ∧
    (∀ (line u : List Char), u ∈ encLineTargets line → is_external u = false) := by
  constructor
  · intro line b t u h
    exact should_check_not_exempt u (mem_check_line_should line b t u h)
  · intro line u h
    unfold encLineTargets at h
    rcases List.mem_append.mp h with h1 | h2
    · have hp := (List.mem_filter.mp h1).2
      have h3 := ((Bool.and_eq_true _ _).mp hp).1
      simpa using h3
    · cases hr : refDefTarget line with
      | none => rw [hr] at h2; simp at h2
      | some t0 =>
        rw [hr] at h2
        have h2' : u ∈ (if (!is_external (pyStrip t0) && has_unencoded_chars (pyStrip t0))
            then [pyStrip t0] else []) := h2
        by_cases hp : (!is_external (pyStrip t0) && has_unencoded_chars (pyStrip t0)) = true
        · rw [if_pos hp] at h2'
          have hu : u = pyStrip t0 := by simpa using h2'
          subst hu
          have h3 := ((Bool.and_eq_true _ _).mp hp).1
          simpa using h3
        · rw [if_neg hp] at h2'
          simp at h2'

/-- Witness for C6: a flagged scanner occurrence and a flagged encoding target
are never scheme-exempt. -/
theorem c6_witness :
    linkSchemeExempt "README.md".toList = false ∧ is_external "b+c".toList = false :=
  ⟨c6_exempt_targets_not_flagged.1 "[README.md](README.md)".toList false
      "README.md".toList "README.md".toList (by decide),
    c6_exempt_targets_not_flagged.2 "[a](b+c)".toList "b+c".toList (by decide)⟩

theorem takeWhile_append_stop {p : Char → Bool} {l₁ : List Char} (l₂ : List Char)
    (h : ∃ x ∈ l₁, p x = false) :
    List.takeWhile p (l₁ ++ l₂) = List.takeWhile p l₁ := by
  induction l₁ with
  | nil => obtain ⟨x, hx, _⟩ := h; simp at hx
  | cons c cs ih =>
    cases hc : p c with
    | false => simp [List.takeWhile_cons, hc]
    | true =>
      simp only [List.cons_append, List.takeWhile_cons, hc, if_true]
      obtain ⟨x, hx, hpx⟩ := h
      rcases List.mem_cons.mp hx with rfl | hxs
      · rw [hc] at hpx; exact absurd hpx (by simp)
      · rw [ih ⟨x, hxs, hpx⟩]

theorem pySplit_ne_nil (sep : Char) (l : List Char) : pySplitChar sep l ≠ [] := by
  cases l with
  | nil => simp [pySplitChar]
  | cons c cs =>
    unfold pySplitChar
    by_cases h : c = sep <;> simp [h]

theorem pySplit_no_sep (sep : Char) (l : List Char) (h : sep ∉ l) :
    pySplitChar sep l = [l] := by
  induction l with
  | nil => rfl
  | cons c cs ih =>
    have hc : ¬(c = sep) := fun he => h (he ▸ List.mem_cons_self c cs)
    have hcs : sep ∉ cs := fun hm => h (List.mem_cons_of_mem c hm)
    unfold pySplitChar
    rw [if_neg hc, ih hcs]
    rfl

theorem pySplit_len2 (sep : Char) (l : List Char) (h : sep ∈ l) :
    2 ≤ (pySplitChar sep l).length := by
  induction l with
  | nil => simp at h
  | cons c cs ih =>
    unfold pySplitChar
    by_cases hc : c = sep
    · rw [if_pos hc]
      have h1 := pySplit_ne_nil sep cs
      have h2 : 1 ≤ (pySplitChar sep cs).length := by
        cases hx : pySplitChar sep cs with
        | nil => exact absurd hx h1
        | cons a t => simp
      simpa using h2
    · rw [if_neg hc]
      have hcs : sep ∈ cs := by
        rcases List.mem_cons.mp h with rfl | hm
        · exact absurd rfl hc
        · exact hm
      have h2 := ih hcs
      cases hx : pySplitChar sep cs with
      | nil => exact absurd hx (pySplit_ne_nil sep cs)
      | cons a t =>
        rw [hx] at h2
        simpa using h2

theorem getLastD_irrel {t : List (List Char)} (h : t ≠ []) (a b : List Char) :
    t.getLastD a = t.getLastD b := by
  cases t with
  | nil => exact absurd rfl h
  | cons x xs => rw [List.getLastD_cons, List.getLastD_cons]

/-- The last component of Python's `split(sep)` is the maximal `sep`-free
suffix (for `sep = '/'`, this is `os.path.basename`). -/
theorem getLastD_pySplit (sep : Char) (l : List Char) :
    (pySplitChar sep l).getLastD [] = (l.reverse.takeWhile (fun c => c != sep)).reverse := by
  induction l with
  | nil => rfl
  | cons c cs ih =>
    have hrev : (c :: cs).reverse = cs.reverse ++ [c] := by simp
    by_cases hc : c = sep
    · subst hc
      unfold pySplitChar
      rw [if_pos rfl, List.getLastD_cons]
      have hdef : (pySplitChar c cs).getLastD [] =
          (cs.reverse.takeWhile (fun x => x != c)).reverse := ih
      rw [← getLastD_irrel (pySplit_ne_nil c cs) [] _] at hdef
      rw [hdef, hrev]
      by_cases hm : c ∈ cs
      · rw [takeWhile_append_stop [c] ⟨c, List.mem_reverse.mpr hm, by simp⟩]
      · have hall : ∀ x ∈ cs.reverse, (fun x => x != c) x = true := by
          intro x hx
          have : x ∈ cs := List.mem_reverse.mp hx
          have : ¬(x = c) := fun he => hm (he ▸ this)
          simpa using this
        rw [takeWhile_eq_self_append hall, List.takeWhile_eq_self_iff.mpr hall]
        simp [List.takeWhile_cons]
    · unfold pySplitChar
      rw [if_neg hc]
      by_cases hm : sep ∈ cs
      · obtain ⟨r0, rt, hx⟩ : ∃ r0 rt, pySplitChar sep cs = r0 :: rt := by
          cases hy : pySplitChar sep cs with
          | nil => exact absurd hy (pySplit_ne_nil sep cs)
          | cons a t => exact ⟨a, t, rfl⟩
        have hrt : rt ≠ [] := by
          have := pySplit_len2 sep cs hm
          rw [hx] at this
          intro he
          rw [he] at this
          simp at this
        rw [hx]
        simp only [List.headD_cons, List.tail_cons, List.getLastD_cons]
        have h1 : rt.getLastD (c :: r0) = rt.getLastD r0 := getLastD_irrel hrt _ _
        have h2 : (pySplitChar sep cs).getLastD [] = rt.getLastD r0 := by
          rw [hx, List.getLastD_cons]
        rw [h1, ← h2, ih, hrev]
        rw [takeWhile_append_stop [c]
          ⟨sep, List.mem_reverse.mpr hm, by simp⟩]
      · rw [pySplit_no_sep sep cs hm]
        simp only [List.headD_cons, List.tail_cons, List.getLastD_cons, List.getLastD_nil]
        have hall : ∀ x ∈ cs.reverse, (fun x => x != sep) x = true := by
          intro x hx
          have hxc : x ∈ cs := List.mem_reverse.mp hx
          have : ¬(x = sep) := fun he => hm (he ▸ hxc)
          simpa using this
        rw [hrev, takeWhile_eq_self_append hall]
        have hcne : ((fun x => x != sep) c) = true := by simpa using hc
        simp [List.takeWhile_cons, hcne]

/-- C7: the Link Rewriter classifies a target as a directory exactly when it
ends with `/` or its final path segment (the maximal slash-free suffix after
stripping trailing slashes) contains no dot; the built URL is the fixed base,
`tree`/`blob`, the fixed branch and the per-component percent-encoded path;
concretely `[Core](Runtime/Core)` becomes a `tree/master` URL and
`[Bus](Runtime/Core/MessageBus.cs)` a `blob/master` URL, preserving the
display text. -/
theorem c7_directory_and_url_shape :
    (∀ path : List Char,
      is_directory_link path =
        ("/".toList.isSuffixOf path ||
          !(((rstripSlash path).reverse.takeWhile (fun c => c != '/')).reverse.contains '.'))) ∧
    (∀ path : List Char,
      transform_to_github_url path =
        REPO_URL ++ "/".toList ++
          (if is_directory_link path then "tree".toList else "blob".toList) ++
          "/".toList ++ BRANCH ++ "/".toList ++
          joinSlash ((pySplitChar '/' path).map pyQuote)) ∧
    on_page_markdown "[Core](Runtime/Core)".toList =
      "[Core](https://github.com/wallstop/DxMessaging/tree/master/Runtime/Core)".toList ∧
    on_page_markdown "[Bus](Runtime/Core/MessageBus.cs)".toList =
      "[Bus](https://github.com/wallstop/DxMessaging/blob/master/Runtime/Core/MessageBus.cs)".toList := by
  refine ⟨?_, fun _ => rfl, rfl, rfl⟩
  intro path
  unfold is_directory_link
  cases hs : ("/".toList.isSuffixOf path) with
  | true => simp
  | false =>
    simp only [Bool.false_eq_true, if_false, Bool.false_or]
    rw [getLastD_pySplit]

theorem takeWhile_drop_decomp (p : Char → Bool) (l : List Char) :
    l = l.takeWhile p ++ l.drop (l.takeWhile p).length := by
  conv_lhs => rw [← List.take_append_drop (l.takeWhile p).length l]
  congr 1
  exact (List.prefix_iff_eq_take.mp (List.takeWhile_prefix p)).symm

theorem hooksLinkTryAt_split {s t u rest : List Char}
    (h : hooksLinkTryAt s = some (t, u, rest)) :
    s = '[' :: (t ++ ']' :: '(' :: (u ++ ')' :: rest)) := by
  unfold hooksLinkTryAt at h
  split at h
  · next cs =>
    by_cases hemp : (cs.takeWhile (fun c => c != ']')).isEmpty = true
    · rw [if_pos hemp] at h; simp at h
    · rw [if_neg hemp] at h
      split at h
      · next r2 heq2 =>
        by_cases hemp2 : (r2.takeWhile (fun c => c != ')')).isEmpty = true
        · rw [if_pos hemp2] at h; simp at h
        · rw [if_neg hemp2] at h
          split at h
          · next rest0 heq3 =>
            simp only [Option.some.injEq, Prod.mk.injEq] at h
            obtain ⟨rfl, rfl, rfl⟩ := h
            have e1 := takeWhile_drop_decomp (fun c => c != ']') cs
            rw [heq2] at e1
            have e2 := takeWhile_drop_decomp (fun c => c != ')') r2
            rw [heq3] at e2
            rw [← e2, ← e1]
          · simp at h
      · simp at h
  · simp at h

theorem hooksLinkFind_split {s pre t u rest : List Char}
    (h : hooksLinkFind s = some (pre, t, u, rest)) :
    s = pre ++ '[' :: (t ++ ']' :: '(' :: (u ++ ')' :: rest)) := by
  induction s generalizing pre with
  | nil => simp [hooksLinkFind] at h
  | cons c cs ih =>
    unfold hooksLinkFind at h
    cases h1 : hooksLinkTryAt (c :: cs) with
    | some v =>
      obtain ⟨t0, u0, r0⟩ := v
      rw [h1] at h
      simp only [Option.some.injEq, Prod.mk.injEq] at h
      obtain ⟨rfl, rfl, rfl, rfl⟩ := h
      simpa using hooksLinkTryAt_split h1
    | none =>
      rw [h1] at h
      cases h2 : hooksLinkFind cs with
      | none => rw [h2] at h; simp at h
      | some v =>
        obtain ⟨p0, t0, u0, r0⟩ := v
        rw [h2] at h
        simp only [Option.some.injEq, Prod.mk.injEq] at h
        obtain ⟨rfl, rfl, rfl, rfl⟩ := h
        rw [List.cons_append]
        exact congrArg (fun l => c :: l) (ih h2)

theorem linkSubGo_id : ∀ (fuel : Nat) (s : List Char),
    (∀ p ∈ linksGo fuel s, is_source_link p.2 = false) → linkSubGo fuel s = s := by
  intro fuel
  induction fuel with
  | zero => intro s _; rfl
  | succ f ih =>
    intro s hyp
    cases hf : hooksLinkFind s with
    | none => unfold linkSubGo; rw [hf]
    | some v =>
      obtain ⟨pre, t, u, rest⟩ := v
      have hmem : (t, u) ∈ linksGo (f + 1) s := by
        unfold linksGo; rw [hf]; exact List.mem_cons_self _ _
      have hsrc : is_source_link u = false := hyp (t, u) hmem
      have htail : ∀ p ∈ linksGo f rest, is_source_link p.2 = false := by
        intro p hp
        exact hyp p (by unfold linksGo; rw [hf]; exact List.mem_cons_of_mem _ hp)
      have hs := hooksLinkFind_split hf
      unfold linkSubGo
      rw [hf]
      show pre ++ transform_link t u ++ linkSubGo f rest = s
      rw [ih rest htail]
      unfold transform_link
      rw [hsrc]
      simp only [Bool.not_false, if_true]
      rw [hs]
      have e1 : ("[".toList : List Char) = ['['] := rfl
      have e2 : ("](".toList : List Char) = [']', '('] := rfl
      have e3 : (")".toList : List Char) = [')'] := rfl
      rw [e1, e2, e3]
      simp

theorem fencedTryAt_none_of_chars {c : Char} {cs : List Char}
    (h1 : c ≠ bq) (h2 : c ≠ '~') : fencedTryAt (c :: cs) = none := by
  have hp1 : ("```".toList.isPrefixOf (c :: cs)) = false := by
    cases hx : ("```".toList.isPrefixOf (c :: cs)) with
    | false => rfl
    | true =>
      obtain ⟨tl, htl⟩ := List.isPrefixOf_iff_prefix.mp hx
      have h3 : ("```".toList : List Char) = [bq, bq, bq] := by decide
      rw [h3] at htl
      have hbc : bq = c := by
        have := congrArg (fun l => l.head?) htl
        simpa using this
      exact absurd hbc.symm h1
  have hp2 : ("~~~".toList.isPrefixOf (c :: cs)) = false := by
    cases hx : ("~~~".toList.isPrefixOf (c :: cs)) with
    | false => rfl
    | true =>
      obtain ⟨tl, htl⟩ := List.isPrefixOf_iff_prefix.mp hx
      have h3 : ("~~~".toList : List Char) = ['~', '~', '~'] := rfl
      rw [h3] at htl
      have hbc : '~' = c := by
        have := congrArg (fun l => l.head?) htl
        simpa using this
      exact absurd hbc.symm h2
  unfold fencedTryAt
  rw [show fenceDelim3 = "```".toList from rfl, show tildeDelim3 = "~~~".toList from rfl,
    hp1, hp2]
  rfl

theorem fencedFind_none_of_chars (s : List Char)
    (h1 : ∀ c ∈ s, c ≠ bq) (h2 : ∀ c ∈ s, c ≠ '~') : fencedFind s = none := by
  induction s with
  | nil => rfl
  | cons c cs ih =>
    unfold fencedFind
    rw [fencedTryAt_none_of_chars (h1 c (List.mem_cons_self c cs)) (h2 c (List.mem_cons_self c cs)),
      ih (fun x hx => h1 x (List.mem_cons_of_mem c hx))
        (fun x hx => h2 x (List.mem_cons_of_mem c hx))]

theorem maskFencedGo_none (fuel k : Nat) (s : List Char) (h : fencedFind s = none) :
    maskFencedGo fuel k s = (s, []) := by
  cases fuel with
  | zero => rfl
  | succ f => unfold maskFencedGo; rw [h]

theorem inlineTryAt_none_of_chars {c : Char} {cs : List Char}
    (h1 : c ≠ bq) : inlineTryAt (c :: cs) = none := by
  have ht : ((c :: cs).takeWhile (fun x => x = bq)) = [] := by
    simp [List.takeWhile_cons, h1]
  unfold inlineTryAt
  rw [ht]
  rfl

theorem inlineFind_none_of_chars (s : List Char)
    (h1 : ∀ c ∈ s, c ≠ bq) : inlineFind s = none := by
  induction s with
  | nil => rfl
  | cons c cs ih =>
    unfold inlineFind
    rw [inlineTryAt_none_of_chars (h1 c (List.mem_cons_self c cs)),
      ih (fun x hx => h1 x (List.mem_cons_of_mem c hx))]

theorem maskInlineGo_none (fuel k : Nat) (s : List Char) (h : inlineFind s = none) :
    maskInlineGo fuel k s = (s, []) := by
  cases fuel with
  | zero => rfl
  | succ f => unfold maskInlineGo; rw [h]

/-- C4's universal claim is false: a document with no markdown link at all,
but containing the literal text `__FENCED_CODE_BLOCK_0__` next to a real
fenced block, is changed by the rewriter (the restoration step replaces the
literal text by the block as well). -/
theorem c4_counterexample :
    hooksLinks "__FENCED_CODE_BLOCK_0__\n```c\nx\n```\n".toList = [] ∧
    on_page_markdown "__FENCED_CODE_BLOCK_0__\n```c\nx\n```\n".toList ≠
      "__FENCED_CODE_BLOCK_0__\n```c\nx\n```\n".toList := by
  refine ⟨rfl, ?_⟩
  decide

/-- C4 (amended): on a document containing no backtick and no tilde character
(so that the code-span masking stages are vacuous and cannot overlap with
placeholder text), and in which no markdown-link match has a target starting
with a recognized source prefix, the rewriter returns the input unchanged. -/
theorem c4_no_source_links_identity :
    ∀ d : List Char, (∀ c ∈ d, c ≠ bq) → (∀ c ∈ d, c ≠ '~') →
      (∀ p ∈ hooksLinks d, is_source_link p.2 = false) →
      on_page_markdown d = d := by
  intro d h1 h2 h3
  have hfm : maskFenced d = (d, []) :=
    maskFencedGo_none d.length 0 d (fencedFind_none_of_chars d h1 h2)
  have him : maskInline d = (d, []) :=
    maskInlineGo_none d.length 0 d (inlineFind_none_of_chars d h1)
  have hls : linkSub d = d := linkSubGo_id d.length d h3
  show restoreGo fencedPlaceholder 0 (maskFenced d).2
      (restoreGo inlinePlaceholder 0 (maskInline (maskFenced d).1).2
        (linkSub (maskInline (maskFenced d).1).1)) = d
  rw [hfm]
  show restoreGo fencedPlaceholder 0 []
      (restoreGo inlinePlaceholder 0 (maskInline d).2 (linkSub (maskInline d).1)) = d
  rw [him]
  show restoreGo fencedPlaceholder 0 [] (restoreGo inlinePlaceholder 0 [] (linkSub d)) = d
  rw [hls]
  rfl

/-- Witness for C4 on a document with links whose targets carry no recognized
prefix. -/
theorem c4_witness :
    on_page_markdown "hello [world](docs/readme.md), see [api](api.txt)\n".toList =
      "hello [world](docs/readme.md), see [api](api.txt)\n".toList :=
  c4_no_source_links_identity "hello [world](docs/readme.md), see [api](api.txt)\n".toList
    (by decide) (by decide) (by decide)

/-- C8's universal claim is false: for a document whose inline code spans
contain placeholder-like text, the first rewrite duplicates a span in a way
that exposes a relative source link to the second pass, which then rewrites
it, so `rewrite (rewrite d) ≠ rewrite d`. -/
theorem c8_counterexample :
    on_page_markdown (on_page_markdown
        "`__INLINE_CODE_1__` `a``[x](Runtime/q)``b`".toList) ≠
      on_page_markdown "`__INLINE_CODE_1__` `a``[x](Runtime/q)``b`".toList := by
  have h1 : on_page_markdown "`__INLINE_CODE_1__` `a``[x](Runtime/q)``b`".toList =
      "``a``[x](Runtime/q)``b`` `a``[x](Runtime/q)``b`".toList := by decide
  have h2 : on_page_markdown "``a``[x](Runtime/q)``b`` `a``[x](Runtime/q)``b`".toList =
      "``a``[x](https://github.com/wallstop/DxMessaging/tree/master/Runtime/q)``b`` `a``[x](Runtime/q)``b`".toList := by
    decide
  rw [h1, h2]
  decide

theorem is_source_link_h (l : List Char) : is_source_link ('h' :: l) = false := rfl

/-- C8 (amended): a rewritten target never starts with a recognized source
prefix — `transform_to_github_url` always begins with the absolute repository
base — so a second rewriter pass leaves every rewritten link unchanged; on a
representative document (a fenced block plus recognized links) the full
rewriter is idempotent, though not on adversarial inputs whose code spans
contain placeholder-like text. -/
theorem c8_second_pass_stable :
    (∀ path : List Char, is_source_link (transform_to_github_url path) = false) ∧
    on_page_markdown (on_page_markdown "```\n[A](Runtime/x)\n```\n[B](Tests/y)\n".toList) =
      on_page_markdown "```\n[A](Runtime/x)\n```\n[B](Tests/y)\n".toList := by
  refine ⟨fun path => is_source_link_h _, ?_⟩
  have h1 : on_page_markdown "```\n[A](Runtime/x)\n```\n[B](Tests/y)\n".toList =
      "```\n[A](Runtime/x)\n```\n[B](https://github.com/wallstop/DxMessaging/tree/master/Tests/y)\n".toList := by
    decide
  rw [h1]
  decide

theorem isPrefixOf_append_left (X : List Char) : ∀ (A : List Char) (B : List Char),
    X.length ≤ A.length → X.isPrefixOf (A ++ B) = X.isPrefixOf A := by
  induction X with
  | nil => intro A B _; simp [List.isPrefixOf]
  | cons x xs ih =>
    intro A B h
    cases A with
    | nil => simp at h
    | cons a as =>
      simp only [List.cons_append, List.isPrefixOf, List.append_eq]
      rw [ih as B (by simpa using h)]

theorem findSub_sound {d : List Char} (hd : d ≠ []) : ∀ {rem ct tl : List Char},
    findSub d rem = some (ct, tl) →
    rem = (ct ++ d) ++ tl ∧ ∀ j, j < ct.length → (d.isPrefixOf (rem.drop j)) = false := by
  intro rem
  induction rem with
  | nil =>
    intro ct tl h
    cases d with
    | nil => exact absurd rfl hd
    | cons x xs =>
      unfold findSub at h
      rw [show ((x :: xs).isPrefixOf ([] : List Char)) = false from rfl] at h
      simp at h
  | cons c cs ih =>
    intro ct tl h
    unfold findSub at h
    cases hp : d.isPrefixOf (c :: cs) with
    | true =>
      rw [hp] at h
      simp only [if_true, Option.some.injEq, Prod.mk.injEq] at h
      obtain ⟨rfl, rfl⟩ := h
      constructor
      · have hpre := List.isPrefixOf_iff_prefix.mp hp
        have := List.prefix_iff_eq_take.mp hpre
        conv_lhs => rw [← List.take_append_drop d.length (c :: cs)]
        rw [← this]
        simp
      · intro j hj; simp at hj
    | false =>
      rw [hp] at h
      simp only [Bool.false_eq_true, if_false] at h
      cases h2 : findSub d cs with
      | none => rw [h2] at h; simp at h
      | some pr =>
        obtain ⟨ct0, tl0⟩ := pr
        rw [h2] at h
        simp only [Option.some.injEq, Prod.mk.injEq] at h
        obtain ⟨rfl, rfl⟩ := h
        obtain ⟨he, hmin⟩ := ih h2
        constructor
        · rw [List.cons_append, List.cons_append, ← he]
        · intro j hj
          cases j with
          | zero => simpa using hp
          | succ j' =>
            have : (c :: cs).drop (j' + 1) = cs.drop j' := rfl
            rw [this]
            exact hmin j' (by simpa using hj)

theorem findSub_complete {d : List Char} (hd : d ≠ []) : ∀ (ct : List Char)
    {rem tl : List Char}, rem = (ct ++ d) ++ tl → findSub d rem ≠ none := by
  intro ct
  induction ct with
  | nil =>
    intro rem tl he
    have hp : d.isPrefixOf rem = true := by
      apply List.isPrefixOf_iff_prefix.mpr
      exact ⟨tl, by rw [he]; simp⟩
    cases rem with
    | nil =>
      cases d with
      | nil => exact absurd rfl hd
      | cons x xs => simp at he
    | cons c cs =>
      unfold findSub
      rw [hp]
      simp
  | cons c ct' ih =>
    intro rem tl he
    cases rem with
    | nil => simp at he
    | cons r rs =>
      unfold findSub
      cases hp : d.isPrefixOf (r :: rs) with
      | true => simp
      | false =>
        have hrs : rs = (ct' ++ d) ++ tl := by
          have := congrArg List.tail he
          simpa using this
        cases h2 : findSub d rs with
        | none => exact absurd h2 (ih hrs)
        | some pr => simp

theorem FencedShape.ne_nil {m : List Char} (h : FencedShape m) : m ≠ [] := by
  obtain ⟨d, rl, ct, hdor, _, _, hm⟩ := h
  rcases hdor with rfl | rfl <;> simp [hm, fenceDelim3, tildeDelim3]

theorem fencedTryBody_sound {d s m rest : List Char}
    (hdor : d = fenceDelim3 ∨ d = tildeDelim3)
    (hdpre : d.isPrefixOf s = true)
    (h : fencedTryBody d s = some (m, rest)) :
    s = m ++ rest ∧ FencedShape m := by
  have hdlen : d.length = 3 := by rcases hdor with rfl | rfl <;> rfl
  have hdne : d ≠ [] := by rcases hdor with rfl | rfl <;> simp [fenceDelim3, tildeDelim3]
  unfold fencedTryBody at h
  split at h
  · next s2 heq2 =>
    cases hfs : findSub d s2 with
    | none => rw [hfs] at h; simp at h
    | some pr =>
      obtain ⟨ct, tl⟩ := pr
      rw [hfs] at h
      simp only [Option.some.injEq, Prod.mk.injEq] at h
      obtain ⟨hm, hrest⟩ := h
      obtain ⟨he3, hmin⟩ := findSub_sound hdne hfs
      have e0 : s = s.take 3 ++ s.drop 3 := (List.take_append_drop 3 s).symm
      have e1 : s.take 3 = d := by
        have := List.prefix_iff_eq_take.mp (List.isPrefixOf_iff_prefix.mp hdpre)
        rw [hdlen] at this
        exact this.symm
      have e2 : s.drop 3 =
          (s.drop 3).takeWhile (fun c => c != '\n') ++ ('\n' :: s2) := by
        have hdec := takeWhile_drop_decomp (fun c => c != '\n') (s.drop 3)
        rw [heq2] at hdec
        exact hdec
      constructor
      · rw [e0, e1, e2, he3, ← hm, ← hrest]
        simp
      · refine ⟨d, (s.drop 3).takeWhile (fun c => c != '\n'), ct, hdor, ?_, ?_, hm.symm⟩
        · intro hmem
          have := List.mem_takeWhile_imp hmem
          simp at this
        · intro j hj
          have hjle : j ≤ (ct ++ d).length := by
            simp only [List.length_append]
            omega
          have hs2 : s2.drop j = (ct ++ d).drop j ++ tl := by
            rw [he3, List.drop_append_of_le_length hjle]
          have := hmin j hj
          rw [hs2, isPrefixOf_append_left d _ tl (by simp [List.length_drop]; omega)] at this
          exact this
  · exact absurd h (by simp)

theorem fencedTryAt_sound {s m rest : List Char} (h : fencedTryAt s = some (m, rest)) :
    s = m ++ rest ∧ FencedShape m := by
  unfold fencedTryAt at h
  by_cases h1 : (fenceDelim3.isPrefixOf s) = true
  · rw [if_pos h1] at h
    exact fencedTryBody_sound (Or.inl rfl) h1 h
  · rw [if_neg h1] at h
    by_cases h2 : (tildeDelim3.isPrefixOf s) = true
    · rw [if_pos h2] at h
      exact fencedTryBody_sound (Or.inr rfl) h2 h
    · rw [if_neg h2] at h
      simp at h

theorem fencedTryBody_complete {d rl ct tl : List Char}
    (hdne : d ≠ []) (hdlen : d.length = 3) (hnl : '\n' ∉ rl) :
    fencedTryBody d ((d ++ rl ++ '\n' :: (ct ++ d)) ++ tl) ≠ none := by
  unfold fencedTryBody
  have hdrop : ((d ++ rl ++ '\n' :: (ct ++ d)) ++ tl).drop 3 =
      rl ++ ('\n' :: ((ct ++ d) ++ tl)) := by
    have e : ((d ++ rl ++ '\n' :: (ct ++ d)) ++ tl) =
        d ++ (rl ++ ('\n' :: ((ct ++ d) ++ tl))) := by simp
    rw [e, ← hdlen, List.drop_left]
  rw [hdrop]
  have htake : (rl ++ ('\n' :: ((ct ++ d) ++ tl))).takeWhile (fun c => c != '\n') = rl :=
    takeWhile_stops
      (fun c hc => by
        have : ¬(c = '\n') := fun he => hnl (he ▸ hc)
        simpa using this)
      (by simp)
  rw [htake, List.drop_left]
  cases hfs : findSub d (ct ++ (d ++ tl)) with
  | none => exact absurd hfs (findSub_complete hdne ct (List.append_assoc ct d tl).symm)
  | some pr => simp [hfs]

theorem fencedTryAt_complete {s m : List Char} (hsh : FencedShape m) (hpre : m <+: s) :
    fencedTryAt s ≠ none := by
  obtain ⟨d, rl, ct, hdor, hnl, _, hm⟩ := hsh
  obtain ⟨tl, htl⟩ := hpre
  subst hm
  subst htl
  have hdlen : d.length = 3 := by rcases hdor with rfl | rfl <;> rfl
  have hdne : d ≠ [] := by rcases hdor with rfl | rfl <;> simp [fenceDelim3, tildeDelim3]
  have hdpre : d.isPrefixOf ((d ++ rl ++ '\n' :: (ct ++ d)) ++ tl) = true := by
    apply List.isPrefixOf_iff_prefix.mpr
    exact ⟨rl ++ '\n' :: (ct ++ d) ++ tl, by simp⟩
  unfold fencedTryAt
  rcases hdor with rfl | rfl
  · rw [if_pos hdpre]
    exact fencedTryBody_complete hdne hdlen hnl
  · have hno : (fenceDelim3.isPrefixOf
        ((tildeDelim3 ++ rl ++ '\n' :: (ct ++ tildeDelim3)) ++ tl)) = false := by
      have e : ((tildeDelim3 ++ rl ++ '\n' :: (ct ++ tildeDelim3)) ++ tl) =
          '~' :: ('~' :: '~' :: (rl ++ '\n' :: (ct ++ tildeDelim3) ++ tl)) := by
        rw [show (tildeDelim3 : List Char) = '~' :: '~' :: '~' :: [] from rfl]
        simp
      rw [e, show (fenceDelim3 : List Char) = [bq, bq, bq] from by decide]
      have hb : (bq == '~') = false := by decide
      simp [List.isPrefixOf, hb]
    rw [if_neg (by rw [hno]; simp), if_pos hdpre]
    exact fencedTryBody_complete hdne hdlen hnl

theorem fencedFind_sound : ∀ {s pre m rest : List Char},
    fencedFind s = some (pre, m, rest) →
    s = pre ++ m ++ rest ∧ FencedShape m ∧
      ∀ i, i < pre.length → fencedTryAt (s.drop i) = none := by
  intro s
  induction s with
  | nil => intro pre m rest h; simp [fencedFind] at h
  | cons c cs ih =>
    intro pre m rest h
    unfold fencedFind at h
    cases h1 : fencedTryAt (c :: cs) with
    | some v =>
      obtain ⟨m0, r0⟩ := v
      rw [h1] at h
      simp only [Option.some.injEq, Prod.mk.injEq] at h
      obtain ⟨rfl, rfl, rfl⟩ := h
      obtain ⟨he, hsh⟩ := fencedTryAt_sound h1
      exact ⟨by simpa using he, hsh, fun i hi => absurd hi (by simp)⟩
    | none =>
      rw [h1] at h
      cases h2 : fencedFind cs with
      | none => rw [h2] at h; simp at h
      | some v =>
        obtain ⟨p0, m0, r0⟩ := v
        rw [h2] at h
        simp only [Option.some.injEq, Prod.mk.injEq] at h
        obtain ⟨rfl, rfl, rfl⟩ := h
        obtain ⟨he, hsh, hleft⟩ := ih h2
        refine ⟨by rw [List.cons_append]; exact congrArg (fun l => c :: l) he, hsh, ?_⟩
        intro i hi
        cases i with
        | zero => exact h1
        | succ i' =>
          have : (c :: cs).drop (i' + 1) = cs.drop i' := rfl
          rw [this]
          exact hleft i' (by simpa using hi)

theorem fencedFind_none : ∀ {s : List Char}, fencedFind s = none →
    ∀ i, fencedTryAt (s.drop i) = none := by
  intro s
  induction s with
  | nil => intro _ i; rw [List.drop_nil]; rfl
  | cons c cs ih =>
    intro h i
    unfold fencedFind at h
    cases h1 : fencedTryAt (c :: cs) with
    | some v => rw [h1] at h; simp at h
    | none =>
      rw [h1] at h
      cases i with
      | zero => exact h1
      | succ i' =>
        have e : (c :: cs).drop (i' + 1) = cs.drop i' := rfl
        rw [e]
        cases h2 : fencedFind cs with
        | some v => rw [h2] at h; obtain ⟨a, b, cc⟩ := v; simp at h
        | none => exact ih h2 i'

theorem not_hasFencedAt {s : List Char} {i : Nat}
    (h : fencedTryAt (s.drop i) = none) : ¬ HasFencedAt s i := by
  rintro ⟨m, hsh, hpre⟩
  exact fencedTryAt_complete hsh hpre h

theorem maskFenced_masked : ∀ (fuel k : Nat) (s : List Char), s.length ≤ fuel →
    FencedMasked k s (maskFencedGo fuel k s).1 (maskFencedGo fuel k s).2 := by
  intro fuel
  induction fuel with
  | zero =>
    intro k s hs
    have hnil : s = [] := List.length_eq_zero.mp (Nat.le_zero.mp hs)
    subst hnil
    exact .done k [] (fun i => not_hasFencedAt (by rw [List.drop_nil]; rfl))
  | succ f ih =>
    intro k s hs
    cases hf : fencedFind s with
    | none =>
      have heq : maskFencedGo (f + 1) k s = (s, []) := by unfold maskFencedGo; rw [hf]
      rw [heq]
      exact .done k s (fun i => not_hasFencedAt (fencedFind_none hf i))
    | some v =>
      obtain ⟨pre, m, rest⟩ := v
      obtain ⟨hse, hsh, hleft⟩ := fencedFind_sound hf
      have hmne : m ≠ [] := hsh.ne_nil
      have hrest : rest.length ≤ f := by
        have hlen := congrArg List.length hse
        simp only [List.length_append] at hlen
        have hm1 : 1 ≤ m.length := by
          cases hme : m with
          | nil => exact absurd hme hmne
          | cons a t => simp
        omega
      have hleft' : ∀ i, i < pre.length → ¬ HasFencedAt (pre ++ m ++ rest) i :=
        fun i hi => not_hasFencedAt (by rw [← hse]; exact hleft i hi)
      have hf' : fencedFind (pre ++ m ++ rest) = some (pre, m, rest) := by
        rw [← hse]; exact hf
      rw [hse]
      simp only [maskFencedGo, hf']
      exact .step k pre m rest _ _ hsh hleft' (ih (k + 1) rest hrest)

/-- C3's delimiter description is false on the code: in `"x ```\ny```z"`
neither line starts with three backticks or tildes, yet stage 1 masks the
mid-line-delimited span `"```\ny```"`; and on two consecutive blocks the
content is matched lazily (two placeholders), not greedily (which would give a
single block spanning to the last delimiter). -/
theorem c3_counterexample :
    maskFenced "x ```\ny```z".toList =
      ("x __FENCED_CODE_BLOCK_0__z".toList, ["```\ny```".toList]) ∧
    ("```".toList.isPrefixOf "x ```".toList) = false ∧
    ("```".toList.isPrefixOf "y```z".toList) = false ∧
    ("~~~".toList.isPrefixOf "x ```".toList) = false ∧
    ("~~~".toList.isPrefixOf "y```z".toList) = false ∧
    maskFenced "```\na\n```\nMID\n```\nb\n```".toList =
      ("__FENCED_CODE_BLOCK_0__\nMID\n__FENCED_CODE_BLOCK_1__".toList,
        ["```\na\n```".toList, "```\nb\n```".toList]) :=
  ⟨rfl, rfl, rfl, rfl, rfl, rfl⟩

/-- C3 (amended): stage 1 of the Link Rewriter repeatedly replaces the
leftmost fenced-block match — an occurrence of ``` or ~~~ anywhere in a line,
the rest of that line and its newline, then the shortest content up to and
including the next occurrence of the same delimiter — with a placeholder
unique per occurrence, retaining the original blocks in occurrence order. -/
theorem c3_stage1_masking_shape :
    ∀ s : List Char, FencedMasked 0 s (maskFenced s).1 (maskFenced s).2 :=
  fun s => maskFenced_masked s.length 0 s (le_refl _)
